import Mathlib

/-!
Verification of the wok static-site engine (`wok/engine.py`).

The definitions below are a shallow embedding of the page-collection and
render-orchestration pipeline of the engine: the category pseudo-tree built
by `Engine.make_tree`, the tag index and the self-extending render worklist
of `Engine.render_site`, and the per-page template-context dictionary that
merges the site configuration.
-/

set_option maxRecDepth 4000

/-- The metadata of one page: `p.meta['category']`, `p.meta['slug']` and
`p.meta['tags']` as used by `make_tree` and `render_site`. -/

structure Meta where
  category : List String
  slug : String
  tags : List String
deriving DecidableEq, Repr

/-- A loaded page: its source path (used in diagnostics) and its metadata. -/

structure Page where
  path : String
  meta : Meta
deriving DecidableEq, Repr

/-- The sort key used by `make_tree`: `len(p.meta['category'])`. -/

def lenKey (p : Page) : Nat := p.meta.category.length

/-- One insertion step of a stable sort by `lenKey`: the new element is
placed before the first element whose key is not smaller, so elements with
equal keys keep their original relative order (Python's `list.sort` is
stable). -/

def insertLen (p : Page) : List Page → List Page
  | [] => [p]
  | q :: qs => if lenKey p ≤ lenKey q then p :: q :: qs else q :: insertLen p qs

/-- Stable sort of the page collection by ascending category-path length,
modelling `self.all_pages.sort(key=lambda p: len(p.meta['category']))`. -/

def sortByLen : List Page → List Page
  | [] => []
  | p :: ps => insertLen p (sortByLen ps)

/-- A node of the category pseudo-tree: the metadata of one page together
with its sub-pages.  In the Python code the node *is* the metadata mapping
and the children live in `meta['subpages']`; here the children are carried
alongside the metadata. -/

inductive TNode where
  | node (meta : Meta) (subpages : List TNode)
deriving Repr

def TNode.meta : TNode → Meta
  | .node m _ => m

def TNode.subpages : TNode → List TNode
  | .node _ s => s

/-- All metadata stored anywhere in a forest (used to state which pages
were inserted). -/

def allMetas : List TNode → List Meta
  | [] => []
  | TNode.node m subs :: rest => m :: (allMetas subs ++ allMetas rest)

/-- `self.categories[top_cat].append(p.meta)`, creating the entry first if
`top_cat not in self.categories`; the per-top-level-category listing is an
association list. -/

def catAppend : List (String × List Meta) → String → Meta → List (String × List Meta)
  | [], c, m => [(c, [m])]
  | (k, ms) :: rest, c, m =>
      if k = c then (k, ms ++ [m]) :: rest else (k, ms) :: catAppend rest c m

/-- Lookup in the per-top-level-category listing (`self.categories[c]`,
with `[]` for a missing key). -/

def lookupCat : List (String × List Meta) → String → List Meta
  | [], _ => []
  | (k, ms) :: rest, c => if k = c then ms else lookupCat rest c

/-- Whether the listing has an entry for key `c` (`c in self.categories`). -/

def hasKey (d : List (String × List Meta)) (c : String) : Bool :=
  d.any (fun e => e.1 == c)

/-- Descend one level of the sibling search:
`parent = [subpage for subpage in siblings if subpage['slug'] == cat][0]`
picks the first sibling whose slug matches, and the update continues inside
that node's `subpages`; `none` models the `IndexError` raised when no
sibling matches. -/

def updateFirst (c : String) (g : List TNode → Option (List TNode)) :
    List TNode → Option (List TNode)
  | [] => none
  | TNode.node mq subs :: rest =>
      if mq.slug = c then
        match g subs with
        | some subs2 => some (TNode.node mq subs2 :: rest)
        | none => none
      else
        match updateFirst c g rest with
        | some rest2 => some (TNode.node mq subs :: rest2)
        | none => none

/-- Walk the category path from the forest roots and append the page's
metadata to the final matched siblings sequence
(`siblings.append(p.meta)`); `none` models the orphan `IndexError`. -/

def insertPath (m : Meta) : List String → List TNode → Option (List TNode)
  | [], siblings => some (siblings ++ [TNode.node m []])
  | c :: cs, siblings => updateFirst c (insertPath m cs) siblings

/-- The state built by `Engine.make_tree`: the per-top-level-category
listing `self.categories`, the forest `site_tree`, the error diagnostics
emitted for orphans (each names the page's source path), the flat page
collection `self.all_pages` (sorted in place), and a log recording, for
each processed page in order, whether it was inserted (`true`) or was an
orphan (`false`). -/

structure TreeResult where
  categories : List (String × List Meta)
  forest : List TNode
  errors : List String
  pages : List Page
  log : List (Page × Bool)

/-- The listing update done before the `try` block: pages with a non-empty
category path record their top-level category slug; pages with an empty
path leave the listing unchanged. -/

def catsUpdate (d : List (String × List Meta)) (p : Page) : List (String × List Meta) :=
  match p.meta.category with
  | [] => d
  | c :: _ => catAppend d c p.meta

/-- One iteration of the `make_tree` loop body for page `p`: update the
per-top-level-category listing, then try to place the page into the
forest; on failure record the orphan diagnostic instead. -/

def tree_step (st : TreeResult) (p : Page) : TreeResult :=
  match insertPath p.meta p.meta.category st.forest with
  | some f2 =>
      ⟨catsUpdate st.categories p, f2, st.errors, st.pages, st.log ++ [(p, true)]⟩
  | none =>
      ⟨catsUpdate st.categories p, st.forest, st.errors ++ [p.path], st.pages,
        st.log ++ [(p, false)]⟩

/-- `Engine.make_tree`: sort `self.all_pages` in place by ascending
category-path length, then process each page in sorted order. -/

def make_tree (l : List Page) : TreeResult :=
  List.foldl tree_step ⟨[], [], [], sortByLen l, []⟩ (sortByLen l)

/-- `p` belongs to the listing entry of top-level category `k`: its
category path is non-empty and starts with `k`. -/

def hasTop (k : String) (p : Page) : Bool :=
  match p.meta.category with
  | [] => false
  | c :: _ => c == k

/-- Add one tag to the accumulated tag set
(`tag_set = tag_set.union(p.meta['tags'])`, the set modelled as a
duplicate-free list in first-encounter order). -/

def setAdd (s : List String) (t : String) : List String :=
  if t ∈ s then s else s ++ [t]

/-- The union of every page's tags (`tag_set` in `render_site`). -/

def tagUnion (pages : List Page) : List String :=
  pages.foldl (fun s p => p.meta.tags.foldl setAdd s) []

/-- The tag index `tag_dict`: one entry per tag of `tag_set`, mapping it to
`[p.meta for p in self.all_pages if tag in p.meta['tags']]`. -/

def tag_dict (pages : List Page) : List (String × List Meta) :=
  (tagUnion pages).map (fun t =>
    (t, (pages.filter (fun p => p.meta.tags.contains t)).map Page.meta))

/-- A value stored in the template-context dictionary or in the site
configuration: strings (and other opaque config values), the rendering
timestamp, the tag index, the page collection, the category listing. -/

inductive Value where
  | vStr : String → Value
  | vTime : Nat → Value
  | vTags : List (String × List Meta) → Value
  | vPages : List Page → Value
  | vCats : List (String × List Meta) → Value
deriving DecidableEq, Repr

def titleKey : String := "title"

def siteTitleKey : String := "site_title"

def outputDirKey : String := "output_dir"

def contentDirKey : String := "content_dir"

def templateDirKey : String := "template_dir"

def templatesDirKey : String := "templates_dir"

def mediaDirKey : String := "media_dir"

def urlPatternKey : String := "url_pattern"

def datetimeKey : String := "datetime"

def tagsKey : String := "tags"

def pagesKey : String := "pages"

def categoriesKey : String := "categories"

def authorKey : String := "author"

/-- Python dict lookup on an association list (first matching key). -/

def dictGet : List (String × Value) → String → Option Value
  | [], _ => none
  | (k2, v2) :: rest, k => if k2 = k then some v2 else dictGet rest k

/-- Python dict assignment `d[k] = v`: overwrite the existing entry for the
key, or append a new entry. -/

def dictSet : List (String × Value) → String → Value → List (String × Value)
  | [], k, v => [(k, v)]
  | (k2, v2) :: rest, k, v =>
      if k2 = k then (k2, v) :: rest else (k2, v2) :: dictSet rest k v

/-- The tuple of option keys excluded from the configuration merge in
`render_site`.  The code spells the fourth entry `'templates_dir'`, while
the actual configuration key (see `default_options`) is `'template_dir'`. -/

def reservedKeys : List String :=
  [siteTitleKey, outputDirKey, contentDirKey, templatesDirKey, mediaDirKey, urlPatternKey]

/-- `Engine.default_options`. -/

def default_options : List (String × Value) :=
  [(contentDirKey, Value.vStr "content"),
   (templateDirKey, Value.vStr "templates"),
   (outputDirKey, Value.vStr "output"),
   (mediaDirKey, Value.vStr "media"),
   (siteTitleKey, Value.vStr "Some random Wok site"),
   (urlPatternKey, Value.vStr "/\x7bcategory\x7d/\x7bslug\x7d\x7bpage\x7d.\x7btype\x7d")]

/-- The `templ_vars['site']` dictionary built for one page of the render
loop: the fixed entries (title, datetime, tags, pages snapshot,
categories), then every configuration pair whose key is not in
`reservedKeys` merged in by dict assignment, then the explicit `author`
binding when that configuration key exists. -/

def siteDict (options : List (String × Value)) (time : Nat)
    (tagd : List (String × List Meta)) (pgs : List Page)
    (cats : List (String × List Meta)) : List (String × Value) :=
  let base : List (String × Value) :=
    [(titleKey, (dictGet options siteTitleKey).getD (Value.vStr "Untitled")),
     (datetimeKey, Value.vTime time),
     (tagsKey, Value.vTags tagd),
     (pagesKey, Value.vPages pgs),
     (categoriesKey, Value.vCats cats)]
  let merged := options.foldl
    (fun d kv => if kv.1 ∈ reservedKeys then d else dictSet d kv.1 kv.2) base
  match dictGet options authorKey with
  | some a => dictSet merged authorKey a
  | none => merged

/-- One processed item of the render worklist: the page that was rendered
and written, and the template context it was rendered with. -/

structure StepLog where
  page : Page
  ctx : List (String × Value)
deriving DecidableEq, Repr

/-- The render loop of `render_site`: `for p in self.all_pages:` iterates
by index over the live list, so pages appended by `self.all_pages +=
new_pages` are visited in the same pass.  `spawn` models `p.render(templ_vars)`
returning the newly produced pages; `fuel` bounds the number of iterations
(a run that exhausts the fuel returns `none`). -/

def render_loop (spawn : Page → List (String × Value) → List Page)
    (options : List (String × Value)) (time : Nat)
    (tagd : List (String × List Meta)) (cats : List (String × List Meta)) :
    Nat → List Page → List StepLog → Nat → Option (List Page × List StepLog)
  | 0, wl, log, i => if i < wl.length then none else some (wl, log)
  | fuel + 1, wl, log, i =>
      if h : i < wl.length then
        render_loop spawn options time tagd cats fuel
          (wl ++ spawn (wl.get ⟨i, h⟩) (siteDict options time tagd wl cats))
          (log ++ [⟨wl.get ⟨i, h⟩, siteDict options time tagd wl cats⟩])
          (i + 1)
      else some (wl, log)

/-- `Engine.render_site`: gather the tag index from the flat collection,
then run the worklist starting from the full collection. -/

def render_site (spawn : Page → List (String × Value) → List Page)
    (options : List (String × Value)) (time : Nat)
    (cats : List (String × List Meta)) (pages : List Page) (fuel : Nat) :
    Option (List Page × List StepLog) :=
  render_loop spawn options time (tag_dict pages) cats fuel pages [] 0

/-- The pipeline portion `make_tree();  render_site()` of `Engine.__init__`:
the tree phase sorts the flat collection in place and builds the listing,
and the render phase consumes both. -/

def run_engine (spawn : Page → List (String × Value) → List Page)
    (options : List (String × Value)) (time : Nat) (l : List Page) (fuel : Nat) :
    Option (List Page × List StepLog) :=
  render_site spawn options time (make_tree l).categories (make_tree l).pages fuel

/-- The worklist contents after the steps in `steps` have been processed
starting from the loaded collection `init`: the spawned pages of each
processed step are appended in order. -/

def wlAt (spawn : Page → List (String × Value) → List Page) (init : List Page)
    (steps : List StepLog) : List Page :=
  init ++ (steps.map (fun s => spawn s.page s.ctx)).flatten

/-- One per-page template context in the object-identity model: the
identity of the freshly constructed `templ_vars` dictionary, of the fresh
`self.all_pages[:]` copy, and of the `tag_dict` and `self.categories`
objects the context references. -/

structure CtxRefs where
  ctxRef : Nat
  pagesRef : Nat
  tagsRef : Nat
  catsRef : Nat
deriving DecidableEq, Repr

/-- All object identities reachable from a context. -/

def CtxRefs.allRefs (r : CtxRefs) : List Nat :=
  [r.ctxRef, r.pagesRef, r.tagsRef, r.catsRef]

/-- The allocations performed by the render loop: each iteration builds a
new `templ_vars` dict ("Construct this every time, to avoid sharing one
instance between page objects") and a new list copy `self.all_pages[:]`,
but stores references to the same `tag_dict` and `self.categories`
objects in every context. -/

def renderRefs (tagsR catsR : Nat) : Nat → Nat → List CtxRefs
  | 0, _ => []
  | n + 1, counter =>
      CtxRefs.mk counter (counter + 1) tagsR catsR ::
        renderRefs tagsR catsR n (counter + 2)

/-- Object identities over a render of `n` pages: `self.categories` is
object 0 (created once in `make_tree`), `tag_dict` is object 1 (created
once before the loop), and per-page allocations start at 2. -/

def render_site_refs (n : Nat) : List CtxRefs := renderRefs 1 0 n 2

/-- Full context isolation as the claim states it: no object is reachable
from the contexts of two different pages, so no mutation applied through
one page's context (including through its nested contents) is observable
through another page's context. -/

def contextsIsolated (rs : List CtxRefs) : Prop :=
  ∀ i j (hi : i < rs.length) (hj : j < rs.length), i ≠ j →
    ∀ a, a ∈ (rs.get ⟨i, hi⟩).allRefs → a ∉ (rs.get ⟨j, hj⟩).allRefs

def keyA : String := "a"

def keyZ : String := "z"

def keyNews : String := "news"

def pgA : Page := ⟨"a.md", ⟨[], "a", []⟩⟩

def pgB : Page := ⟨"b.md", ⟨["a"], "b", []⟩⟩

def pgC : Page := ⟨"c.md", ⟨["a", "b"], "c", []⟩⟩

def pgD : Page := ⟨"d.md", ⟨["a", "b", "c"], "d", []⟩⟩

def pgO : Page := ⟨"o.md", ⟨["z"], "o", []⟩⟩

def pgT : Page := ⟨"t.md", ⟨[], "t", ["news"]⟩⟩

def demoPages6 : List Page := [pgO, pgA, pgB]

/-- A concrete render step: page `pgA` spawns `pgB`, nothing else spawns. -/

def spawnDemo : Page → List (String × Value) → List Page :=
  fun p _ => if p = pgA then [pgB] else []

/-- The context produced by `siteDict` for empty options, time 0, empty tag
index and categories, and pages snapshot `pgs`. -/

def demoCtx (pgs : List Page) : List (String × Value) :=
  [(titleKey, Value.vStr "Untitled"), (datetimeKey, Value.vTime 0),
   (tagsKey, Value.vTags []), (pagesKey, Value.vPages pgs),
   (categoriesKey, Value.vCats [])]

def demoFinal : List Page := [pgA, pgB]

def demoLog : List StepLog :=
  [StepLog.mk pgA (demoCtx [pgA]), StepLog.mk pgB (demoCtx [pgA, pgB])]

theorem mem_insertLen (p x : Page) (l : List Page) :
    x ∈ insertLen p l ↔ x = p ∨ x ∈ l := by
  induction l with
  | nil => simp [insertLen]
  | cons q qs ih =>
      by_cases h : lenKey p ≤ lenKey q
      · simp [insertLen, h]
      · simp [insertLen, h, ih]
        tauto

theorem insertLen_perm (p : Page) (l : List Page) :
    List.Perm (insertLen p l) (p :: l) := by
  induction l with
  | nil => simp [insertLen]
  | cons q qs ih =>
      by_cases h : lenKey p ≤ lenKey q
      · simp [insertLen, h]
      · simp only [insertLen, if_neg h]
        exact List.Perm.trans (List.Perm.cons q ih) (List.Perm.swap p q qs)

theorem sortByLen_perm (l : List Page) : List.Perm (sortByLen l) l := by
  induction l with
  | nil => simp [sortByLen]
  | cons p ps ih =>
      exact List.Perm.trans (insertLen_perm p (sortByLen ps)) (List.Perm.cons p ih)

theorem pairwise_insertLen (p : Page) (l : List Page)
    (h : List.Pairwise (fun a b : Page => lenKey a ≤ lenKey b) l) :
    List.Pairwise (fun a b : Page => lenKey a ≤ lenKey b) (insertLen p l) := by
  induction l with
  | nil => simp [insertLen]
  | cons q qs ih =>
      rcases List.pairwise_cons.mp h with ⟨hq, hqs⟩
      by_cases hpq : lenKey p ≤ lenKey q
      · rw [insertLen, if_pos hpq]
        refine List.pairwise_cons.mpr ⟨?_, h⟩
        intro x hx
        rcases List.mem_cons.mp hx with rfl | hx
        · exact hpq
        · exact Nat.le_trans hpq (hq x hx)
      · rw [insertLen, if_neg hpq]
        refine List.pairwise_cons.mpr ⟨?_, ih hqs⟩
        intro x hx
        rcases (mem_insertLen p x qs).mp hx with rfl | hx
        · exact Nat.le_of_lt (Nat.lt_of_not_le hpq)
        · exact hq x hx

theorem sortByLen_sorted (l : List Page) :
    List.Pairwise (fun a b : Page => lenKey a ≤ lenKey b) (sortByLen l) := by
  induction l with
  | nil => simp [sortByLen]
  | cons p ps ih => exact pairwise_insertLen p (sortByLen ps) ih

theorem filter_insertLen (p : Page) (k : Nat) (l : List Page) :
    (insertLen p l).filter (fun x => lenKey x == k) =
      if lenKey p = k then p :: l.filter (fun x => lenKey x == k)
      else l.filter (fun x => lenKey x == k) := by
  induction l with
  | nil =>
      by_cases h : lenKey p = k <;>
        simp [insertLen, List.filter_cons, h]
  | cons q qs ih =>
      by_cases hpq : lenKey p ≤ lenKey q
      · rw [insertLen, if_pos hpq]
        by_cases hp : lenKey p = k <;>
          simp [List.filter_cons, hp]
      · rw [insertLen, if_neg hpq]
        have hlt : lenKey q < lenKey p := Nat.lt_of_not_le hpq
        by_cases hp : lenKey p = k
        · have hq : ¬ lenKey q = k := by omega
          simp [List.filter_cons, hp, hq, ih]
        · by_cases hq : lenKey q = k <;>
            simp [List.filter_cons, hp, hq, ih]

/-- Stability of the length sort: for each key value, the subsequence of
pages with that category-path length is unchanged. -/

theorem sortByLen_stable (l : List Page) (k : Nat) :
    (sortByLen l).filter (fun x => lenKey x == k) =
      l.filter (fun x => lenKey x == k) := by
  induction l with
  | nil => simp [sortByLen]
  | cons p ps ih =>
      rw [sortByLen, filter_insertLen]
      by_cases hp : lenKey p = k <;>
        simp [List.filter_cons, hp, ih]

theorem allMetas_append (f g : List TNode) :
    allMetas (f ++ g) = allMetas f ++ allMetas g := by
  induction f with
  | nil => simp [allMetas]
  | cons n rest ih =>
      cases n with
      | node m subs => simp [allMetas, ih]

theorem updateFirst_metas (c : String) (g : List TNode → Option (List TNode)) :
    ∀ sib sib2, updateFirst c g sib = some sib2 →
      sib2.map TNode.meta = sib.map TNode.meta := by
  intro sib
  induction sib with
  | nil => intro sib2 h; simp [updateFirst] at h
  | cons n rest ih =>
      cases n with
      | node mq subs =>
          intro sib2 h
          rw [updateFirst] at h
          by_cases hc : mq.slug = c
          · rw [if_pos hc] at h
            cases hg : g subs with
            | none => rw [hg] at h; exact absurd h (by simp)
            | some subs2 =>
                rw [hg] at h
                cases h
                simp [TNode.meta]
          · rw [if_neg hc] at h
            cases hr : updateFirst c g rest with
            | none => rw [hr] at h; exact absurd h (by simp)
            | some rest2 =>
                rw [hr] at h
                cases h
                simp [TNode.meta, ih rest2 hr]

theorem updateFirst_allMetas (c : String) (g : List TNode → Option (List TNode)) (m : Meta)
    (hg : ∀ s s2, g s = some s2 → List.Perm (allMetas s2) (m :: allMetas s)) :
    ∀ sib sib2, updateFirst c g sib = some sib2 →
      List.Perm (allMetas sib2) (m :: allMetas sib) := by
  intro sib
  induction sib with
  | nil => intro sib2 h; simp [updateFirst] at h
  | cons n rest ih =>
      cases n with
      | node mq subs =>
          intro sib2 h
          rw [updateFirst] at h
          by_cases hc : mq.slug = c
          · rw [if_pos hc] at h
            cases hgs : g subs with
            | none => rw [hgs] at h; exact absurd h (by simp)
            | some subs2 =>
                rw [hgs] at h
                cases h
                simp only [allMetas]
                have h1 : List.Perm (allMetas subs2 ++ allMetas rest)
                    (m :: (allMetas subs ++ allMetas rest)) := by
                  have := List.Perm.append_right (allMetas rest) (hg subs subs2 hgs)
                  simpa using this
                exact (List.Perm.cons mq h1).trans
                  (List.Perm.swap m mq (allMetas subs ++ allMetas rest))
          · rw [if_neg hc] at h
            cases hr : updateFirst c g rest with
            | none => rw [hr] at h; exact absurd h (by simp)
            | some rest2 =>
                rw [hr] at h
                cases h
                simp only [allMetas]
                have h1 : List.Perm (allMetas subs ++ allMetas rest2)
                    (m :: (allMetas subs ++ allMetas rest)) := by
                  have h2 : List.Perm (allMetas subs ++ allMetas rest2)
                      (allMetas subs ++ (m :: allMetas rest)) :=
                    List.Perm.append_left (allMetas subs) (ih rest2 hr)
                  exact h2.trans List.perm_middle
                exact (List.Perm.cons mq h1).trans
                  (List.Perm.swap m mq (allMetas subs ++ allMetas rest))

theorem insertPath_allMetas (m : Meta) :
    ∀ (cs : List String) (f f2 : List TNode), insertPath m cs f = some f2 →
      List.Perm (allMetas f2) (m :: allMetas f) := by
  intro cs
  induction cs with
  | nil =>
      intro f f2 h
      rw [insertPath] at h
      cases h
      rw [allMetas_append]
      have hall : allMetas [TNode.node m []] = [m] := by simp [allMetas]
      rw [hall]
      exact List.perm_append_singleton m (allMetas f)
  | cons c cs ih =>
      intro f f2 h
      rw [insertPath] at h
      exact updateFirst_allMetas c (insertPath m cs) m (fun s s2 hs => ih s s2 hs) f f2 h

theorem insertPath_cons_metas (m : Meta) (c : String) (cs : List String)
    (f f2 : List TNode) (h : insertPath m (c :: cs) f = some f2) :
    f2.map TNode.meta = f.map TNode.meta := by
  rw [insertPath] at h
  exact updateFirst_metas c (insertPath m cs) f f2 h

theorem lookupCat_catAppend_self (d : List (String × List Meta)) (c : String) (m : Meta) :
    lookupCat (catAppend d c m) c = lookupCat d c ++ [m] := by
  induction d with
  | nil => simp [catAppend, lookupCat]
  | cons e rest ih =>
      cases e with
      | mk k ms =>
          by_cases hk : k = c
          · simp [catAppend, lookupCat, hk]
          · simp [catAppend, lookupCat, hk, ih]

theorem lookupCat_catAppend_ne (d : List (String × List Meta)) (c c2 : String) (m : Meta)
    (h : c ≠ c2) : lookupCat (catAppend d c m) c2 = lookupCat d c2 := by
  induction d with
  | nil => simp [catAppend, lookupCat, h]
  | cons e rest ih =>
      cases e with
      | mk k ms =>
          by_cases hk : k = c
          · subst hk
            simp [catAppend, lookupCat, h]
          · simp [catAppend, lookupCat, hk, ih]

theorem mem_lookupCat_catAppend (d : List (String × List Meta)) (c c2 : String)
    (m m0 : Meta) (h : m0 ∈ lookupCat d c2) : m0 ∈ lookupCat (catAppend d c m) c2 := by
  by_cases hc : c = c2
  · subst hc
    rw [lookupCat_catAppend_self]
    exact List.mem_append_left [m] h
  · rw [lookupCat_catAppend_ne d c c2 m hc]
    exact h

theorem mem_catsUpdate (d : List (String × List Meta)) (p : Page) (c : String) (m0 : Meta)
    (h : m0 ∈ lookupCat d c) : m0 ∈ lookupCat (catsUpdate d p) c := by
  cases hcat : p.meta.category with
  | nil => simpa [catsUpdate, hcat] using h
  | cons c0 cs =>
      simpa [catsUpdate, hcat] using mem_lookupCat_catAppend d c0 c p.meta m0 h

theorem tree_step_categories (st : TreeResult) (p : Page) :
    (tree_step st p).categories = catsUpdate st.categories p := by
  rw [tree_step]
  cases insertPath p.meta p.meta.category st.forest <;> rfl

theorem tree_step_categories_mono (st : TreeResult) (p : Page) (c : String) (m0 : Meta)
    (h : m0 ∈ lookupCat st.categories c) :
    m0 ∈ lookupCat (tree_step st p).categories c := by
  rw [tree_step_categories]
  exact mem_catsUpdate st.categories p c m0 h

theorem tree_fold_categories_mono :
    ∀ (l : List Page) (st : TreeResult) (c : String) (m0 : Meta),
      m0 ∈ lookupCat st.categories c →
      m0 ∈ lookupCat (List.foldl tree_step st l).categories c := by
  intro l
  induction l with
  | nil => intro st c m0 h; simpa using h
  | cons p ps ih =>
      intro st c m0 h
      exact ih (tree_step st p) c m0 (tree_step_categories_mono st p c m0 h)

theorem tree_fold_pages (l : List Page) :
    ∀ st : TreeResult, (List.foldl tree_step st l).pages = st.pages := by
  induction l with
  | nil => intro st; rfl
  | cons p ps ih =>
      intro st
      rw [List.foldl_cons, ih]
      rw [tree_step]
      cases insertPath p.meta p.meta.category st.forest <;> rfl

theorem tree_step_some (st : TreeResult) (p : Page) (f2 : List TNode)
    (hins : insertPath p.meta p.meta.category st.forest = some f2) :
    tree_step st p =
      ⟨catsUpdate st.categories p, f2, st.errors, st.pages, st.log ++ [(p, true)]⟩ := by
  rw [tree_step, hins]

theorem tree_step_none (st : TreeResult) (p : Page)
    (hins : insertPath p.meta p.meta.category st.forest = none) :
    tree_step st p =
      ⟨catsUpdate st.categories p, st.forest, st.errors ++ [p.path], st.pages,
        st.log ++ [(p, false)]⟩ := by
  rw [tree_step, hins]

theorem insertPath_nil_ne_none (m : Meta) (f : List TNode) :
    insertPath m [] f ≠ none := by
  rw [insertPath]
  exact Option.some_ne_none _

theorem tree_fold_spec :
    ∀ (l : List Page) (st : TreeResult),
      ∃ nl : List (Page × Bool),
        (List.foldl tree_step st l).log = st.log ++ nl ∧
        nl.map Prod.fst = l ∧
        (List.foldl tree_step st l).errors =
          st.errors ++ (nl.filter (fun x => !x.2)).map (fun x => x.1.path) ∧
        List.Perm (allMetas (List.foldl tree_step st l).forest)
          ((nl.filter (fun x => x.2)).map (fun x => x.1.meta) ++ allMetas st.forest) ∧
        (∀ p b, (p, b) ∈ nl → p.meta.category = [] → b = true) ∧
        (∀ p b, (p, b) ∈ nl → ∀ c cs, p.meta.category = c :: cs →
            p.meta ∈ lookupCat (List.foldl tree_step st l).categories c) ∧
        (List.foldl tree_step st l).forest.map TNode.meta =
          st.forest.map TNode.meta ++
            (l.filter (fun p => p.meta.category.isEmpty)).map Page.meta := by
  intro l
  induction l with
  | nil =>
      intro st
      refine ⟨[], by simp, rfl, by simp, by simp, by simp, by simp, by simp⟩
  | cons p ps ih =>
      intro st
      rw [List.foldl_cons]
      obtain ⟨nl2, h1, h2, h3, h4, h5, h6, h7⟩ := ih (tree_step st p)
      have hcats : (tree_step st p).categories = catsUpdate st.categories p :=
        tree_step_categories st p
      cases hins : insertPath p.meta p.meta.category st.forest with
      | some f2 =>
          have hstep := tree_step_some st p f2 hins
          have hflog : (tree_step st p).log = st.log ++ [(p, true)] := by rw [hstep]
          have hferr : (tree_step st p).errors = st.errors := by rw [hstep]
          have hffor : (tree_step st p).forest = f2 := by rw [hstep]
          refine ⟨(p, true) :: nl2, ?_, ?_, ?_, ?_, ?_, ?_, ?_⟩
          · rw [h1, hflog]
            simp
          · simp [h2]
          · rw [h3, hferr]
            simp
          · rw [hffor] at h4
            have hf2 := insertPath_allMetas p.meta p.meta.category st.forest f2 hins
            have hmid : List.Perm
                ((nl2.filter (fun x => x.2)).map (fun x => x.1.meta) ++ allMetas f2)
                ((nl2.filter (fun x => x.2)).map (fun x => x.1.meta) ++
                  (p.meta :: allMetas st.forest)) :=
              List.Perm.append_left _ hf2
            have hgoal := (h4.trans hmid).trans List.perm_middle
            simpa using hgoal
          · intro p0 b0 hmem hempty
            rcases List.mem_cons.mp hmem with heq | hmem2
            · cases heq; rfl
            · exact h5 p0 b0 hmem2 hempty
          · intro p0 b0 hmem c cs hcat
            rcases List.mem_cons.mp hmem with heq | hmem2
            · injection heq with heqp heqb
              subst heqp
              refine tree_fold_categories_mono ps (tree_step st p0) c p0.meta ?_
              rw [hcats]
              have hupd : catsUpdate st.categories p0 = catAppend st.categories c p0.meta := by
                simp [catsUpdate, hcat]
              rw [hupd, lookupCat_catAppend_self]
              exact List.mem_append_right _ (List.mem_singleton.mpr rfl)
            · exact h6 p0 b0 hmem2 c cs hcat
          · rw [h7, hffor]
            cases hcat : p.meta.category with
            | nil =>
                rw [hcat] at hins
                rw [insertPath] at hins
                have hf2 : f2 = st.forest ++ [TNode.node p.meta []] :=
                  (Option.some_inj.mp hins).symm
                subst hf2
                simp [List.filter_cons, hcat, TNode.meta]
            | cons c0 cs0 =>
                rw [hcat] at hins
                have hmeta := insertPath_cons_metas p.meta c0 cs0 st.forest f2 hins
                rw [hmeta]
                simp [List.filter_cons, hcat]
      | none =>
          have hstep := tree_step_none st p hins
          have hflog : (tree_step st p).log = st.log ++ [(p, false)] := by rw [hstep]
          have hferr : (tree_step st p).errors = st.errors ++ [p.path] := by rw [hstep]
          have hffor : (tree_step st p).forest = st.forest := by rw [hstep]
          have hnonempty : p.meta.category ≠ [] := by
            intro hcat
            rw [hcat] at hins
            exact insertPath_nil_ne_none p.meta st.forest hins
          refine ⟨(p, false) :: nl2, ?_, ?_, ?_, ?_, ?_, ?_, ?_⟩
          · rw [h1, hflog]
            simp
          · simp [h2]
          · rw [h3, hferr]
            simp
          · rw [hffor] at h4
            simpa using h4
          · intro p0 b0 hmem hempty
            rcases List.mem_cons.mp hmem with heq | hmem2
            · injection heq with heqp heqb
              subst heqp
              exact absurd hempty hnonempty
            · exact h5 p0 b0 hmem2 hempty
          · intro p0 b0 hmem c cs hcat
            rcases List.mem_cons.mp hmem with heq | hmem2
            · injection heq with heqp heqb
              subst heqp
              refine tree_fold_categories_mono ps (tree_step st p0) c p0.meta ?_
              rw [hcats]
              have hupd : catsUpdate st.categories p0 = catAppend st.categories c p0.meta := by
                simp [catsUpdate, hcat]
              rw [hupd, lookupCat_catAppend_self]
              exact List.mem_append_right _ (List.mem_singleton.mpr rfl)
            · exact h6 p0 b0 hmem2 c cs hcat
          · rw [h7, hffor]
            have hfalse : p.meta.category.isEmpty = false := by
              cases hcat : p.meta.category with
              | nil => exact absurd hcat hnonempty
              | cons c0 cs0 => simp [hcat]
            simp [List.filter_cons, hfalse]

theorem hasTop_nil (k : String) (p : Page) (h : p.meta.category = []) :
    hasTop k p = false := by
  rw [hasTop, h]

theorem hasTop_cons (k : String) (p : Page) (c : String) (cs : List String)
    (h : p.meta.category = c :: cs) : hasTop k p = (c == k) := by
  rw [hasTop, h]

theorem lookupCat_catsUpdate (d : List (String × List Meta)) (p : Page) (k : String) :
    lookupCat (catsUpdate d p) k =
      if hasTop k p then lookupCat d k ++ [p.meta] else lookupCat d k := by
  cases hcat : p.meta.category with
  | nil => simp [catsUpdate, hcat, hasTop_nil k p hcat]
  | cons c cs =>
      rw [catsUpdate, hcat, hasTop_cons k p c cs hcat]
      by_cases hck : c = k
      · subst hck
        simp [lookupCat_catAppend_self]
      · have : (c == k) = false := beq_eq_false_iff_ne.mpr hck
        simp [this, lookupCat_catAppend_ne d c k p.meta hck]

theorem tree_fold_lookupCat :
    ∀ (l : List Page) (st : TreeResult) (k : String),
      lookupCat (List.foldl tree_step st l).categories k =
        lookupCat st.categories k ++ (l.filter (hasTop k)).map Page.meta := by
  intro l
  induction l with
  | nil => intro st k; simp
  | cons p ps ih =>
      intro st k
      rw [List.foldl_cons, ih (tree_step st p) k, tree_step_categories,
        lookupCat_catsUpdate]
      by_cases h : hasTop k p = true
      · simp [List.filter_cons, h]
      · simp [List.filter_cons, h]

theorem hasKey_cons (k0 : String) (ms : List Meta) (rest : List (String × List Meta))
    (k : String) : hasKey ((k0, ms) :: rest) k = ((k0 == k) || hasKey rest k) := by
  simp [hasKey]

theorem hasKey_catAppend (d : List (String × List Meta)) (c k : String) (m : Meta) :
    hasKey (catAppend d c m) k = (hasKey d k || (c == k)) := by
  induction d with
  | nil => simp [catAppend, hasKey]
  | cons e rest ih =>
      cases e with
      | mk k0 ms =>
          by_cases hk : k0 = c
          · subst hk
            simp only [catAppend, if_pos rfl]
            cases h0 : (k0 == k) <;> simp [hasKey_cons, h0]
          · simp only [catAppend, if_neg hk, hasKey_cons, ih, Bool.or_assoc]
  

theorem hasKey_catsUpdate (d : List (String × List Meta)) (p : Page) (k : String) :
    hasKey (catsUpdate d p) k = (hasKey d k || hasTop k p) := by
  cases hcat : p.meta.category with
  | nil => simp [catsUpdate, hcat, hasTop_nil k p hcat]
  | cons c cs =>
      rw [catsUpdate, hcat, hasTop_cons k p c cs hcat, hasKey_catAppend]

theorem tree_fold_hasKey :
    ∀ (l : List Page) (st : TreeResult) (k : String),
      hasKey (List.foldl tree_step st l).categories k =
        (hasKey st.categories k || l.any (hasTop k)) := by
  intro l
  induction l with
  | nil => intro st k; simp
  | cons p ps ih =>
      intro st k
      rw [List.foldl_cons, ih (tree_step st p) k, tree_step_categories,
        hasKey_catsUpdate]
      simp [Bool.or_assoc]

theorem mem_setAdd (s : List String) (x t : String) :
    t ∈ setAdd s x ↔ t ∈ s ∨ t = x := by
  rw [setAdd]
  by_cases h : x ∈ s
  · rw [if_pos h]
    constructor
    · exact fun h2 => Or.inl h2
    · rintro (h2 | rfl)
      · exact h2
      · exact h
  · rw [if_neg h]
    simp

theorem mem_foldl_setAdd (ts : List String) :
    ∀ (s : List String) (t : String), t ∈ ts.foldl setAdd s ↔ t ∈ s ∨ t ∈ ts := by
  induction ts with
  | nil => intro s t; simp
  | cons x xs ih =>
      intro s t
      rw [List.foldl_cons, ih (setAdd s x) t, mem_setAdd]
      constructor
      · rintro ((h | rfl) | h)
        · exact Or.inl h
        · exact Or.inr (List.mem_cons_self _ _)
        · exact Or.inr (List.mem_cons_of_mem _ h)
      · rintro (h | h)
        · exact Or.inl (Or.inl h)
        · rcases List.mem_cons.mp h with rfl | h2
          · exact Or.inl (Or.inr rfl)
          · exact Or.inr h2

theorem mem_tagUnion (pages : List Page) (t : String) :
    t ∈ tagUnion pages ↔ ∃ p, p ∈ pages ∧ t ∈ p.meta.tags := by
  have hgen : ∀ (l : List Page) (s : List String),
      t ∈ l.foldl (fun s p => p.meta.tags.foldl setAdd s) s ↔
        t ∈ s ∨ ∃ p, p ∈ l ∧ t ∈ p.meta.tags := by
    intro l
    induction l with
    | nil => intro s; simp
    | cons p ps ih =>
        intro s
        rw [List.foldl_cons, ih, mem_foldl_setAdd]
        constructor
        · rintro ((h | h) | ⟨q, hq, ht⟩)
          · exact Or.inl h
          · exact Or.inr ⟨p, List.mem_cons_self p ps, h⟩
          · exact Or.inr ⟨q, List.mem_cons_of_mem p hq, ht⟩
        · rintro (h | ⟨q, hq, ht⟩)
          · exact Or.inl (Or.inl h)
          · rcases List.mem_cons.mp hq with rfl | hq2
            · exact Or.inl (Or.inr ht)
            · exact Or.inr ⟨q, hq2, ht⟩
  rw [tagUnion, hgen pages []]
  simp

theorem mem_tag_dict (pages : List Page) (t : String) (ms : List Meta) :
    (t, ms) ∈ tag_dict pages ↔
      t ∈ tagUnion pages ∧
        ms = (pages.filter (fun p => p.meta.tags.contains t)).map Page.meta := by
  rw [tag_dict]
  constructor
  · intro h
    rcases List.mem_map.mp h with ⟨t2, ht2, heq⟩
    have ht : t2 = t := congrArg Prod.fst heq
    subst ht
    exact ⟨ht2, (congrArg Prod.snd heq).symm⟩
  · rintro ⟨h1, rfl⟩
    exact List.mem_map.mpr ⟨t, h1, rfl⟩

theorem tag_dict_entry_sub (pages : List Page) (t : String) (ms : List Meta)
    (h : (t, ms) ∈ tag_dict pages) (m : Meta) (hm : m ∈ ms) :
    m ∈ pages.map Page.meta := by
  rcases (mem_tag_dict pages t ms).mp h with ⟨_, rfl⟩
  rcases List.mem_map.mp hm with ⟨p, hp, rfl⟩
  exact List.mem_map.mpr ⟨p, List.mem_of_mem_filter hp, rfl⟩

theorem get_append_at_length (l1 : List StepLog) (s : StepLog) (t2 : List StepLog)
    (h : l1.length < (l1 ++ s :: t2).length) :
    (l1 ++ s :: t2).get ⟨l1.length, h⟩ = s := by
  simp only [List.get_eq_getElem]
  rw [List.getElem_append_right (Nat.le_refl l1.length)]
  simp

theorem render_loop_master (spawn : Page → List (String × Value) → List Page)
    (options : List (String × Value)) (time : Nat)
    (tagd : List (String × List Meta)) (cats : List (String × List Meta))
    (init : List Page) :
    ∀ (fuel : Nat) (wl : List Page) (log : List StepLog)
      (final : List Page) (flog : List StepLog),
      render_loop spawn options time tagd cats fuel wl log log.length =
        some (final, flog) →
      wl = wlAt spawn init log →
      log.map StepLog.page = wl.take log.length →
      (final = wlAt spawn init flog ∧
       flog.map StepLog.page = final ∧
       (∃ t2, flog = log ++ t2) ∧
       (∀ j (hj : j < flog.length), log.length ≤ j →
          (flog.get ⟨j, hj⟩).ctx =
            siteDict options time tagd (wlAt spawn init (flog.take j)) cats)) := by
  intro fuel
  induction fuel with
  | zero =>
      intro wl log final flog hrun hwl hmap
      rw [render_loop] at hrun
      by_cases h : log.length < wl.length
      · rw [if_pos h] at hrun
        exact absurd hrun (by simp)
      · rw [if_neg h] at hrun
        have hpair := Option.some_inj.mp hrun
        have hfin : wl = final := congrArg Prod.fst hpair
        have hlg : log = flog := congrArg Prod.snd hpair
        subst hfin
        subst hlg
        have htake : wl.take log.length = wl :=
          List.take_of_length_le (Nat.le_of_not_lt h)
        refine ⟨hwl, by rw [hmap, htake], ⟨[], by simp⟩, ?_⟩
        intro j hj hij
        have : log.length ≤ j := hij
        have hcon : j < log.length := hj
        omega
  | succ fuel ih =>
      intro wl log final flog hrun hwl hmap
      rw [render_loop] at hrun
      by_cases h : log.length < wl.length
      · rw [dif_pos h] at hrun
        set p := wl.get ⟨log.length, h⟩ with hp
        set ctx := siteDict options time tagd wl cats with hctx
        have hlen : log.length + 1 = (log ++ [(StepLog.mk p ctx)]).length := by simp
        rw [hlen] at hrun
        have hwl2 : wl ++ spawn p ctx = wlAt spawn init (log ++ [(StepLog.mk p ctx)]) := by
          rw [hwl]
          simp [wlAt]
        have hmap2 : (log ++ [(StepLog.mk p ctx)]).map StepLog.page =
            (wl ++ spawn p ctx).take (log ++ [(StepLog.mk p ctx)]).length := by
          rw [← hlen]
          rw [List.take_append_of_le_length (Nat.succ_le_of_lt h)]
          rw [List.take_succ]
          rw [List.map_append, hmap]
          have hget : wl[log.length]? = some p := by
            rw [List.getElem?_eq_getElem h]
            simp [hp]
          rw [hget]
          simp
        obtain ⟨c1, c2, ⟨t2, ht2⟩, c4⟩ :=
          ih (wl ++ spawn p ctx) (log ++ [(StepLog.mk p ctx)]) final flog hrun hwl2 hmap2
        have hflog : flog = log ++ ((StepLog.mk p ctx) :: t2) := by
          rw [ht2, List.append_assoc]
          rfl
        refine ⟨c1, c2, ⟨(StepLog.mk p ctx) :: t2, hflog⟩, ?_⟩
        intro j hj hij
        by_cases hj2 : log.length + 1 ≤ j
        · have := c4 j hj (by simpa using hj2)
          exact this
        · have hjeq : j = log.length := by omega
          subst hjeq
          subst hflog
          rw [get_append_at_length log (StepLog.mk p ctx) t2 hj]
          have htk : (log ++ (StepLog.mk p ctx) :: t2).take log.length = log :=
            List.take_left log ((StepLog.mk p ctx) :: t2)
          rw [htk, ← hwl]
      · rw [dif_neg h] at hrun
        have hpair := Option.some_inj.mp hrun
        have hfin : wl = final := congrArg Prod.fst hpair
        have hlg : log = flog := congrArg Prod.snd hpair
        subst hfin
        subst hlg
        have htake : wl.take log.length = wl :=
          List.take_of_length_le (Nat.le_of_not_lt h)
        refine ⟨hwl, by rw [hmap, htake], ⟨[], by simp⟩, ?_⟩
        intro j hj hij
        omega

theorem dictGet_dictSet_ne (d : List (String × Value)) (k k2 : String) (v : Value)
    (h : k ≠ k2) : dictGet (dictSet d k v) k2 = dictGet d k2 := by
  induction d with
  | nil => simp [dictSet, dictGet, h]
  | cons e rest ih =>
      cases e with
      | mk k0 v0 =>
          by_cases h0 : k0 = k
          · subst h0
            simp [dictSet, dictGet, h]
          · by_cases h2 : k0 = k2
            · subst h2
              simp [dictSet, dictGet, h0]
            · simp [dictSet, dictGet, h0, h2, ih]

theorem dictGet_merge_fold :
    ∀ (options : List (String × Value)) (d : List (String × Value)) (k2 : String),
      (∀ kv, kv ∈ options → kv.1 ≠ k2) →
      dictGet (List.foldl
        (fun d kv => if kv.1 ∈ reservedKeys then d else dictSet d kv.1 kv.2) d options) k2 =
        dictGet d k2 := by
  intro options
  induction options with
  | nil => intro d k2 h; rfl
  | cons kv rest ih =>
      intro d k2 h
      rw [List.foldl_cons]
      rw [ih _ k2 (fun kv2 h2 => h kv2 (List.mem_cons_of_mem kv h2))]
      by_cases hres : kv.1 ∈ reservedKeys
      · rw [if_pos hres]
      · rw [if_neg hres]
        exact dictGet_dictSet_ne d kv.1 k2 kv.2 (h kv (List.mem_cons_self kv rest))

theorem dictGet_siteDict_pages (options : List (String × Value)) (time : Nat)
    (tagd : List (String × List Meta)) (pgs : List Page)
    (cats : List (String × List Meta))
    (h : ∀ kv, kv ∈ options → kv.1 ≠ pagesKey) :
    dictGet (siteDict options time tagd pgs cats) pagesKey = some (Value.vPages pgs) := by
  rw [siteDict]
  cases hauth : dictGet options authorKey with
  | none =>
      simp only [hauth]
      rw [dictGet_merge_fold options _ pagesKey h]
      rfl
  | some a =>
      simp only [hauth]
      rw [dictGet_dictSet_ne _ authorKey pagesKey a (by decide)]
      rw [dictGet_merge_fold options _ pagesKey h]
      rfl

theorem dictGet_siteDict_tags (options : List (String × Value)) (time : Nat)
    (tagd : List (String × List Meta)) (pgs : List Page)
    (cats : List (String × List Meta))
    (h : ∀ kv, kv ∈ options → kv.1 ≠ tagsKey) :
    dictGet (siteDict options time tagd pgs cats) tagsKey = some (Value.vTags tagd) := by
  rw [siteDict]
  cases hauth : dictGet options authorKey with
  | none =>
      simp only [hauth]
      rw [dictGet_merge_fold options _ tagsKey h]
      rfl
  | some a =>
      simp only [hauth]
      rw [dictGet_dictSet_ne _ authorKey tagsKey a (by decide)]
      rw [dictGet_merge_fold options _ tagsKey h]
      rfl

theorem renderRefs_length (tagsR catsR : Nat) :
    ∀ n k, (renderRefs tagsR catsR n k).length = n := by
  intro n
  induction n with
  | zero => intro k; rfl
  | succ n ih => intro k; simp [renderRefs, ih]

theorem renderRefs_get (tagsR catsR : Nat) :
    ∀ (n i k : Nat) (h : i < (renderRefs tagsR catsR n k).length),
      (renderRefs tagsR catsR n k).get ⟨i, h⟩ =
        CtxRefs.mk (k + 2 * i) (k + 2 * i + 1) tagsR catsR := by
  intro n
  induction n with
  | zero =>
      intro i k h
      rw [renderRefs_length] at h
      omega
  | succ n ih =>
      intro i k h
      cases i with
      | zero =>
          show CtxRefs.mk k (k + 1) tagsR catsR =
            CtxRefs.mk (k + 2 * 0) (k + 2 * 0 + 1) tagsR catsR
          norm_num
      | succ i =>
          have h2 : i < (renderRefs tagsR catsR n (k + 2)).length := by
            rw [renderRefs_length]
            rw [renderRefs_length] at h
            omega
          have hrec := ih i (k + 2) h2
          show (renderRefs tagsR catsR n (k + 2)).get ⟨i, h2⟩ =
            CtxRefs.mk (k + 2 * (i + 1)) (k + 2 * (i + 1) + 1) tagsR catsR
          rw [hrec]
          congr 1 <;> omega

/-- C1: for every run of the render worklist that completes (finite spawn
chains, modelled by sufficient fuel), the log of rendered-and-written pages
is exactly the final worklist: every page of the initial worklist and every
page returned by some processed page's render step is rendered and written
before the run ends, newly returned pages are appended to the end of the
worklist and visited in the same pass, and each worklist entry is processed
exactly once (the log has one entry per worklist position, in order). -/

theorem worklist_exhaustive (spawn : Page → List (String × Value) → List Page)
    (options : List (String × Value)) (time : Nat) (cats : List (String × List Meta))
    (init final : List Page) (flog : List StepLog) (fuel : Nat)
    (hrun : render_site spawn options time cats init fuel = some (final, flog)) :
    flog.map StepLog.page = final ∧
    final = init ++ (flog.map (fun s => spawn s.page s.ctx)).flatten ∧
    (∀ p, p ∈ init → p ∈ flog.map StepLog.page) ∧
    (∀ s, s ∈ flog → ∀ q, q ∈ spawn s.page s.ctx → q ∈ flog.map StepLog.page) := by
  have hrun2 : render_loop spawn options time (tag_dict init) cats fuel init
      ([] : List StepLog) ([] : List StepLog).length = some (final, flog) := hrun
  obtain ⟨c1, c2, _hext, _hctx⟩ :=
    render_loop_master spawn options time (tag_dict init) cats init fuel init []
      final flog hrun2 (by simp [wlAt]) rfl
  rw [wlAt] at c1
  refine ⟨c2, c1, ?_, ?_⟩
  · intro p hp
    rw [c2, c1]
    exact List.mem_append_left _ hp
  · intro s hs q hq
    rw [c2, c1]
    refine List.mem_append_right _ ?_
    exact List.mem_flatten.mpr ⟨spawn s.page s.ctx, List.mem_map.mpr ⟨s, hs, rfl⟩, hq⟩

/-- Witness for C1 at a concrete run: the initial worklist `[pgA]` spawns
`pgB`, and the completed run renders exactly `[pgA, pgB]` in order. -/

theorem worklist_exhaustive_witness :
    demoLog.map StepLog.page = demoFinal ∧
    demoFinal = [pgA] ++ (demoLog.map (fun s => spawnDemo s.page s.ctx)).flatten := by
  have h := worklist_exhaustive spawnDemo [] 0 [] [pgA] demoFinal demoLog 5 (by decide)
  exact ⟨h.1, h.2.1⟩

/-- C4: the pages snapshot stored in the context of the j-th processed
worklist item is exactly the flat collection as it stands when that item is
processed: the initial collection plus the pages spawned by the items
processed before j, and nothing spawned at or after j. -/

theorem context_pages_snapshot (spawn : Page → List (String × Value) → List Page)
    (options : List (String × Value)) (time : Nat) (cats : List (String × List Meta))
    (init final : List Page) (flog : List StepLog) (fuel : Nat)
    (hrun : render_site spawn options time cats init fuel = some (final, flog))
    (hopts : ∀ kv, kv ∈ options → kv.1 ≠ pagesKey) :
    ∀ j (hj : j < flog.length),
      dictGet ((flog.get ⟨j, hj⟩).ctx) pagesKey =
        some (Value.vPages (init ++
          ((flog.take j).map (fun s => spawn s.page s.ctx)).flatten)) := by
  have hrun2 : render_loop spawn options time (tag_dict init) cats fuel init
      ([] : List StepLog) ([] : List StepLog).length = some (final, flog) := hrun
  obtain ⟨_c1, _c2, _hext, hctx⟩ :=
    render_loop_master spawn options time (tag_dict init) cats init fuel init []
      final flog hrun2 (by simp [wlAt]) rfl
  intro j hj
  rw [hctx j hj (Nat.zero_le j)]
  rw [dictGet_siteDict_pages _ _ _ _ _ hopts]
  rw [wlAt]

/-- Witness for C4: in the concrete run, the second processed page's
context holds the snapshot `[pgA] ++ spawn of step 0 = [pgA, pgB]`. -/

theorem context_pages_snapshot_witness :
    dictGet ((demoLog.get ⟨1, by decide⟩).ctx) pagesKey =
      some (Value.vPages ([pgA] ++
        ((demoLog.take 1).map (fun s => spawnDemo s.page s.ctx)).flatten)) :=
  context_pages_snapshot spawnDemo [] 0 [] [pgA] demoFinal demoLog 5 (by decide)
    (by intro kv h; exact absurd h (List.not_mem_nil kv)) 1 (by decide)

/-- C8: the tag index is computed once, from the flat collection as it
stands before the render loop begins, and every processed page's context
holds that same tag index; a page whose metadata is not in the initial
collection (in particular any page spawned mid-run) appears in no entry of
that tag index. -/

theorem tag_index_frozen (spawn : Page → List (String × Value) → List Page)
    (options : List (String × Value)) (time : Nat) (cats : List (String × List Meta))
    (init final : List Page) (flog : List StepLog) (fuel : Nat)
    (hrun : render_site spawn options time cats init fuel = some (final, flog))
    (hopts : ∀ kv, kv ∈ options → kv.1 ≠ tagsKey) :
    (∀ j (hj : j < flog.length),
        dictGet ((flog.get ⟨j, hj⟩).ctx) tagsKey = some (Value.vTags (tag_dict init))) ∧
    (∀ q : Page, q.meta ∉ init.map Page.meta →
        ∀ e, e ∈ tag_dict init → q.meta ∉ e.2) := by
  constructor
  · have hrun2 : render_loop spawn options time (tag_dict init) cats fuel init
        ([] : List StepLog) ([] : List StepLog).length = some (final, flog) := hrun
    obtain ⟨_c1, _c2, _hext, hctx⟩ :=
      render_loop_master spawn options time (tag_dict init) cats init fuel init []
        final flog hrun2 (by simp [wlAt]) rfl
    intro j hj
    rw [hctx j hj (Nat.zero_le j)]
    exact dictGet_siteDict_tags _ _ _ _ _ hopts
  · intro q hq e he hqe
    cases e with
    | mk t ms => exact hq (tag_dict_entry_sub init t ms he q.meta hqe)

/-- Witness for C8: in the concrete run, the first processed page's context
holds exactly the tag index of the initial collection `[pgA]`. -/

theorem tag_index_frozen_witness :
    dictGet ((demoLog.get ⟨0, by decide⟩).ctx) tagsKey =
      some (Value.vTags (tag_dict [pgA])) :=
  (tag_index_frozen spawnDemo [] 0 [] [pgA] demoFinal demoLog 5 (by decide)
    (by intro kv h; exact absurd h (List.not_mem_nil kv))).1 0 (by decide)

/-- C7: the tag index has an entry exactly for the tags appearing in some
page's tag set, and each entry lists exactly the metadata of the pages
whose tag set contains the tag, in flat-collection order, with no page
lacking the tag included. -/

theorem tag_index_complete (pages : List Page) (t : String) :
    ((∃ p, p ∈ pages ∧ t ∈ p.meta.tags) ↔ (∃ e, e ∈ tag_dict pages ∧ e.1 = t)) ∧
    (∀ ms, (t, ms) ∈ tag_dict pages →
        ms = (pages.filter (fun p => p.meta.tags.contains t)).map Page.meta) := by
  constructor
  · constructor
    · intro hex
      have ht : t ∈ tagUnion pages := (mem_tagUnion pages t).mpr hex
      exact ⟨(t, (pages.filter (fun p => p.meta.tags.contains t)).map Page.meta),
        (mem_tag_dict pages t _).mpr ⟨ht, rfl⟩, rfl⟩
    · rintro ⟨e, he, rfl⟩
      rcases List.mem_map.mp he with ⟨t2, ht2, heq⟩
      rw [← heq]
      exact (mem_tagUnion pages t2).mp ht2
  · intro ms hms
    exact ((mem_tag_dict pages t ms).mp hms).2

/-- Witness for C7: the entry of tag `news` over the collection `[pgT]`. -/

theorem tag_index_complete_witness :
    ([pgT.meta] : List Meta) =
      (([pgT] : List Page).filter (fun p => p.meta.tags.contains keyNews)).map Page.meta :=
  (tag_index_complete [pgT] keyNews).2 [pgT.meta] (by decide)

/-- C6: every page is processed by tree construction exactly once in
flat-collection order; a page whose category-path lookup fails (an orphan)
contributes an error diagnostic naming its source path and its metadata is
not inserted into the forest, while it stays in the flat collection and in
the per-top-level-category listing; a page with an empty category path is
never an orphan and its metadata is inserted at the top level of the
forest. -/

theorem orphan_handling (l : List Page) :
    ((make_tree l).log.map Prod.fst = (make_tree l).pages) ∧
    List.Perm (make_tree l).pages l ∧
    ((make_tree l).errors =
      ((make_tree l).log.filter (fun x => !x.2)).map (fun x => x.1.path)) ∧
    List.Perm (allMetas (make_tree l).forest)
      (((make_tree l).log.filter (fun x => x.2)).map (fun x => x.1.meta)) ∧
    (∀ p b, (p, b) ∈ (make_tree l).log → ∀ c cs, p.meta.category = c :: cs →
        p.meta ∈ lookupCat (make_tree l).categories c) ∧
    (∀ p b, (p, b) ∈ (make_tree l).log → p.meta.category = [] → b = true) ∧
    ((make_tree l).forest.map TNode.meta =
      ((make_tree l).pages.filter (fun p => p.meta.category.isEmpty)).map Page.meta) := by
  have hmk : make_tree l =
      List.foldl tree_step ⟨[], [], [], sortByLen l, []⟩ (sortByLen l) := rfl
  obtain ⟨nl, h1, h2, h3, h4, h5, h6, h7⟩ :=
    tree_fold_spec (sortByLen l) ⟨[], [], [], sortByLen l, []⟩
  have hlog : (make_tree l).log = nl := by
    rw [hmk, h1]
    rfl
  have hpages : (make_tree l).pages = sortByLen l := by
    rw [hmk, tree_fold_pages]
  refine ⟨?_, ?_, ?_, ?_, ?_, ?_, ?_⟩
  · rw [hlog, hpages, h2]
  · rw [hpages]
    exact sortByLen_perm l
  · rw [hlog, hmk, h3]
    rfl
  · rw [hlog, hmk]
    simpa [allMetas] using h4
  · intro p b hmem c cs hcat
    rw [hlog] at hmem
    rw [hmk]
    exact h6 p b hmem c cs hcat
  · intro p b hmem hcat
    rw [hlog] at hmem
    exact h5 p b hmem hcat
  · rw [hmk, hpages] at *
    rw [h7]
    simp [allMetas]

/-- Witness for C6 on a concrete collection with one orphan (`pgO`, whose
top-level slug `z` matches no root): the diagnostics equation holds, the
orphan stays in the listing entry of `z`, and every page was processed. -/

theorem orphan_handling_witness :
    ((make_tree demoPages6).errors =
      ((make_tree demoPages6).log.filter (fun x => !x.2)).map (fun x => x.1.path)) ∧
    pgO.meta ∈ lookupCat (make_tree demoPages6).categories keyZ ∧
    ((make_tree demoPages6).log.map Prod.fst = (make_tree demoPages6).pages) := by
  refine ⟨(orphan_handling demoPages6).2.2.1, ?_, (orphan_handling demoPages6).1⟩
  exact (orphan_handling demoPages6).2.2.2.2.1 pgO false (by decide) keyZ [] (by decide)

/-- C9: the categories mapping exposed to template contexts has an entry
exactly for the first segments of non-empty category paths; the entry of
`k` lists the metadata of every page whose path starts with `k`, in
flat-collection order; and a page with an empty category path appears in no
entry (the top-level forest-roots sequence, which holds those pages, is a
local of tree construction and is not part of the categories mapping). -/

theorem categories_characterization (l : List Page) (k : String) :
    (hasKey (make_tree l).categories k = true ↔ ∃ p, p ∈ l ∧ hasTop k p = true) ∧
    (lookupCat (make_tree l).categories k =
      ((make_tree l).pages.filter (hasTop k)).map Page.meta) ∧
    (∀ m, m ∈ lookupCat (make_tree l).categories k → m.category ≠ []) := by
  have hmk : make_tree l =
      List.foldl tree_step ⟨[], [], [], sortByLen l, []⟩ (sortByLen l) := rfl
  have hpages : (make_tree l).pages = sortByLen l := by
    rw [hmk, tree_fold_pages]
  have hval : lookupCat (make_tree l).categories k =
      ((sortByLen l).filter (hasTop k)).map Page.meta := by
    rw [hmk, tree_fold_lookupCat]
    rfl
  refine ⟨?_, ?_, ?_⟩
  · rw [hmk, tree_fold_hasKey]
    have hfalse : hasKey (⟨[], [], [], sortByLen l, []⟩ : TreeResult).categories k = false := rfl
    rw [hfalse]
    rw [Bool.false_or]
    rw [List.any_eq_true]
    constructor
    · rintro ⟨p, hp, htop⟩
      exact ⟨p, (sortByLen_perm l).mem_iff.mp hp, htop⟩
    · rintro ⟨p, hp, htop⟩
      exact ⟨p, (sortByLen_perm l).mem_iff.mpr hp, htop⟩
  · rw [hval, hpages]
  · intro m hm
    rw [hval] at hm
    rcases List.mem_map.mp hm with ⟨p, hp, rfl⟩
    have htop : hasTop k p = true := List.of_mem_filter hp
    intro hcat
    rw [hasTop_nil k p hcat] at htop
    exact Bool.false_ne_true htop

/-- Witness for C9: over the concrete collection, category `a` has an entry
and no entry holds an empty-path page's metadata. -/

theorem categories_characterization_witness :
    hasKey (make_tree demoPages6).categories keyA = true ∧
    (∀ m, m ∈ lookupCat (make_tree demoPages6).categories keyA → m.category ≠ []) := by
  refine ⟨?_, (categories_characterization demoPages6 keyA).2.2⟩
  exact (categories_characterization demoPages6 keyA).1.mpr ⟨pgB, by decide, by decide⟩

theorem sorted_perm_eq :
    ∀ (l1 l2 : List Page), List.Perm l1 l2 →
      List.Pairwise (fun a b : Page => lenKey a ≤ lenKey b) l1 →
      List.Pairwise (fun a b : Page => lenKey a ≤ lenKey b) l2 →
      List.Pairwise (fun a b : Page => lenKey a ≠ lenKey b) l2 →
      l1 = l2 := by
  intro l1
  induction l1 with
  | nil =>
      intro l2 hperm _ _ _
      exact hperm.nil_eq
  | cons a t1 ih =>
      intro l2 hperm h1 h2 hinj
      cases l2 with
      | nil => exact absurd hperm.symm.nil_eq (by simp)
      | cons b t2 =>
          have hab : a = b := by
            rcases List.mem_cons.mp (hperm.subset (List.mem_cons_self a t1)) with
              heq | hat2
            · exact heq
            · rcases List.mem_cons.mp (hperm.symm.subset (List.mem_cons_self b t2)) with
                heq2 | hbt1
              · exact heq2.symm
              · have ha1 := (List.pairwise_cons.mp h1).1 b hbt1
                have hb2 := (List.pairwise_cons.mp h2).1 a hat2
                have hne := (List.pairwise_cons.mp hinj).1 a hat2
                omega
          subst hab
          have htp : List.Perm t1 t2 := hperm.cons_inv
          rw [ih t2 htp (List.pairwise_cons.mp h1).2 (List.pairwise_cons.mp h2).2
            (List.pairwise_cons.mp hinj).2]

/-- C5: tree construction sorts the collection by ascending category-path
length, stably with respect to the original order for equal lengths, and
for pages with category paths [], [a], [a,b], [a,b,c] and matching slugs
a, b, c (and d for the deepest page), every input ordering produces the
forest in which a contains b contains c contains d: every ancestor is
inserted before every descendant. -/

theorem sort_stable_and_nesting :
    (∀ l : List Page,
        List.Pairwise (fun a b : Page => lenKey a ≤ lenKey b) (sortByLen l) ∧
        (∀ k : Nat, (sortByLen l).filter (fun x => lenKey x == k) =
          l.filter (fun x => lenKey x == k)) ∧
        List.Perm (sortByLen l) l) ∧
    (∀ l : List Page, List.Perm l [pgA, pgB, pgC, pgD] →
        (make_tree l).forest =
          [TNode.node pgA.meta [TNode.node pgB.meta [TNode.node pgC.meta
            [TNode.node pgD.meta []]]]]) := by
  constructor
  · intro l
    exact ⟨sortByLen_sorted l, fun k => sortByLen_stable l k, sortByLen_perm l⟩
  · intro l hperm
    have hs : sortByLen l = [pgA, pgB, pgC, pgD] :=
      sorted_perm_eq (sortByLen l) [pgA, pgB, pgC, pgD]
        ((sortByLen_perm l).trans hperm) (sortByLen_sorted l) (by decide) (by decide)
    rw [make_tree, hs]
    rfl

/-- Witness for C5: the fully reversed input ordering still nests
a ⊃ b ⊃ c ⊃ d. -/

theorem sort_stable_and_nesting_witness :
    (make_tree [pgD, pgC, pgB, pgA]).forest =
      [TNode.node pgA.meta [TNode.node pgB.meta [TNode.node pgC.meta
        [TNode.node pgD.meta []]]]] :=
  sort_stable_and_nesting.2 [pgD, pgC, pgB, pgA] (by decide)

/-- C10: `make_tree` sorts the flat collection in place, so the collection
consumed afterwards by the tag index and the render worklist is the
depth-ascending stably sorted collection (a permutation of the loaded
order), not the loaded order itself: the engine's render phase starts from
`sortByLen l` and computes the tag index on `sortByLen l`. -/

theorem flat_collection_sorted_in_place (l : List Page)
    (spawn : Page → List (String × Value) → List Page)
    (options : List (String × Value)) (time : Nat) (fuel : Nat) :
    (make_tree l).pages = sortByLen l ∧
    List.Perm (sortByLen l) l ∧
    List.Pairwise (fun a b : Page => lenKey a ≤ lenKey b) (sortByLen l) ∧
    (∀ k : Nat, (sortByLen l).filter (fun x => lenKey x == k) =
      l.filter (fun x => lenKey x == k)) ∧
    run_engine spawn options time l fuel =
      render_loop spawn options time (tag_dict (sortByLen l))
        (make_tree l).categories fuel (sortByLen l) [] 0 := by
  have hpages : (make_tree l).pages = sortByLen l := by
    rw [make_tree, tree_fold_pages]
  refine ⟨hpages, sortByLen_perm l, sortByLen_sorted l,
    fun k => sortByLen_stable l k, ?_⟩
  rw [run_engine, render_site, hpages]

/-- C2 (code bug): with the default configuration, the template directory
path is merged into the per-page site context (as key `template_dir`),
because the exclusion tuple in `render_site` spells the key
`templates_dir`, which matches no configuration key; the other five
reserved keys are correctly excluded. -/

theorem template_dir_merged_into_context :
    dictGet (siteDict default_options 0 [] [] []) templateDirKey =
      some (Value.vStr "templates") ∧
    dictGet (siteDict default_options 0 [] [] []) siteTitleKey = none ∧
    dictGet (siteDict default_options 0 [] [] []) outputDirKey = none ∧
    dictGet (siteDict default_options 0 [] [] []) contentDirKey = none ∧
    dictGet (siteDict default_options 0 [] [] []) mediaDirKey = none ∧
    dictGet (siteDict default_options 0 [] [] []) urlPatternKey = none := by
  decide

/-- C3 (counterexample): full context isolation fails: already with two
pages, the contexts of page 0 and page 1 share the `tag_dict` object
(object identity 1), so a mutation reached through the tag index nested in
page 0's context is observable in page 1's context. -/

theorem context_isolation_refuted : ¬ contextsIsolated (render_site_refs 2) := by
  intro h
  exact h 0 1 (by decide) (by decide) (by decide) 1 (by decide) (by decide)

/-- C3 (amended): each page's context object and its pages-list copy are
fresh (their identities differ from those of every other page's context),
so mutating the context mapping itself or the pages sequence itself is not
observable across pages; but all contexts reference the same `tag_dict`
and the same `self.categories` objects, so mutations reached through those
nested structures are observable in later pages' contexts. -/

theorem context_isolation_amended (n i j : Nat)
    (hi : i < (render_site_refs n).length) (hj : j < (render_site_refs n).length)
    (hne : i ≠ j) :
    ((render_site_refs n).get ⟨i, hi⟩).ctxRef ≠
      ((render_site_refs n).get ⟨j, hj⟩).ctxRef ∧
    ((render_site_refs n).get ⟨i, hi⟩).pagesRef ≠
      ((render_site_refs n).get ⟨j, hj⟩).pagesRef ∧
    ((render_site_refs n).get ⟨i, hi⟩).tagsRef =
      ((render_site_refs n).get ⟨j, hj⟩).tagsRef ∧
    ((render_site_refs n).get ⟨i, hi⟩).catsRef =
      ((render_site_refs n).get ⟨j, hj⟩).catsRef := by
  have g1 : (render_site_refs n).get ⟨i, hi⟩ =
      CtxRefs.mk (2 + 2 * i) (2 + 2 * i + 1) 1 0 := renderRefs_get 1 0 n i 2 hi
  have g2 : (render_site_refs n).get ⟨j, hj⟩ =
      CtxRefs.mk (2 + 2 * j) (2 + 2 * j + 1) 1 0 := renderRefs_get 1 0 n j 2 hj
  rw [g1, g2]
  refine ⟨?_, ?_, rfl, rfl⟩
  · show 2 + 2 * i ≠ 2 + 2 * j
    omega
  · show 2 + 2 * i + 1 ≠ 2 + 2 * j + 1
    omega

/-- Witness for the amended C3 at the concrete two-page render. -/

theorem context_isolation_amended_witness :
    ((render_site_refs 2).get ⟨0, by decide⟩).ctxRef ≠
      ((render_site_refs 2).get ⟨1, by decide⟩).ctxRef ∧
    ((render_site_refs 2).get ⟨0, by decide⟩).pagesRef ≠
      ((render_site_refs 2).get ⟨1, by decide⟩).pagesRef ∧
    ((render_site_refs 2).get ⟨0, by decide⟩).tagsRef =
      ((render_site_refs 2).get ⟨1, by decide⟩).tagsRef ∧
    ((render_site_refs 2).get ⟨0, by decide⟩).catsRef =
      ((render_site_refs 2).get ⟨1, by decide⟩).catsRef :=
  context_isolation_amended 2 0 1 (by decide) (by decide) (by decide)
